import Mathlib

/-!
Verification development for the wedding-site fuzzy guest-search core
(`src/utils/fuzzySearch.js`): string normalization, Levenshtein-style edit
distance, similarity scoring, per-guest matching and collection-wide search.

Strings are modelled as `List Char` (JavaScript strings over the code points
exercised here), JavaScript numbers as `ℚ`, and `null`/absent values as
`Option`.  Each definition mirrors the corresponding source function.
-/

attribute [local semireducible] Rat.ofScientific Rat.mul Rat.inv Rat.add Rat.sub

namespace FuzzySearch

/-! ## Character-level helpers for the normalizer -/

/-- Characters matched by the JavaScript regex class `\s` (the ones relevant
to this code base: ASCII whitespace and no-break space). -/
def jsWhitespace (c : Char) : Bool :=
  c = ' ' || c = Char.ofNat 9 || c = Char.ofNat 10 || c = Char.ofNat 11 ||
  c = Char.ofNat 12 || c = Char.ofNat 13 || c = Char.ofNat 160

/-- `String.prototype.trim()`: drop whitespace from both ends. -/
def jsTrim (l : List Char) : List Char :=
  ((l.dropWhile jsWhitespace).reverse.dropWhile jsWhitespace).reverse

/-- `.replace(/\s+/g, ' ')`: every maximal run of whitespace becomes one
single space. -/
def collapseWs : List Char → List Char
  | [] => []
  | c :: rest =>
    match rest with
    | [] => [if jsWhitespace c then ' ' else c]
    | c2 :: _ =>
      if jsWhitespace c then
        if jsWhitespace c2 then collapseWs rest
        else ' ' :: collapseWs rest
      else c :: collapseWs rest

/-- The punctuation class removed by `.replace(/[.,\-']/g, '')`. -/
def punctChar (c : Char) : Bool :=
  c = '.' || c = ',' || c = '-' || c = Char.ofNat 39

/-- Remove the punctuation characters. -/
def removePunct (l : List Char) : List Char :=
  l.filter fun c => !punctChar c

/-- A combining diacritical mark, i.e. the range `[̀-ͯ]`. -/
def combiningMark (c : Char) : Bool :=
  decide (768 ≤ c.toNat ∧ c.toNat ≤ 879)

/-- `.replace(/[̀-ͯ]/g, '')`: drop combining diacritical marks. -/
def stripMarks (l : List Char) : List Char :=
  l.filter fun c => !combiningMark c

/-- Model of `String.prototype.toLowerCase()` on the Latin-1 range
(ASCII `A`–`Z` plus `À`–`Þ` except `×`); other code points are kept as is. -/
def jsToLower (c : Char) : Char :=
  if 65 ≤ c.toNat ∧ c.toNat ≤ 90 then Char.ofNat (c.toNat + 32)
  else if 192 ≤ c.toNat ∧ c.toNat ≤ 222 ∧ c.toNat ≠ 215 then Char.ofNat (c.toNat + 32)
  else c

/-- Canonical decomposition table modelling `String.prototype.normalize('NFD')`
on the lowercase Latin-1 letters with diacritics (the uppercase ones cannot
reach this stage because the code lower-cases first). -/
def nfdTable : List (Char × List Char) :=
  [('à', ['a', Char.ofNat 768]), ('á', ['a', Char.ofNat 769]),
   ('â', ['a', Char.ofNat 770]), ('ã', ['a', Char.ofNat 771]),
   ('ä', ['a', Char.ofNat 776]), ('å', ['a', Char.ofNat 778]),
   ('ç', ['c', Char.ofNat 807]), ('è', ['e', Char.ofNat 768]),
   ('é', ['e', Char.ofNat 769]), ('ê', ['e', Char.ofNat 770]),
   ('ë', ['e', Char.ofNat 776]), ('ì', ['i', Char.ofNat 768]),
   ('í', ['i', Char.ofNat 769]), ('î', ['i', Char.ofNat 770]),
   ('ï', ['i', Char.ofNat 776]), ('ñ', ['n', Char.ofNat 771]),
   ('ò', ['o', Char.ofNat 768]), ('ó', ['o', Char.ofNat 769]),
   ('ô', ['o', Char.ofNat 770]), ('õ', ['o', Char.ofNat 771]),
   ('ö', ['o', Char.ofNat 776]), ('ù', ['u', Char.ofNat 768]),
   ('ú', ['u', Char.ofNat 769]), ('û', ['u', Char.ofNat 770]),
   ('ü', ['u', Char.ofNat 776]), ('ý', ['y', Char.ofNat 769]),
   ('ÿ', ['y', Char.ofNat 776])]

/-- Canonical decomposition of a single character. -/
def nfd (c : Char) : List Char :=
  match nfdTable.find? fun p => p.1 = c with
  | some p => p.2
  | none => [c]

/-- `normalizeString` from the source: empty for `null`/non-text input, else
lower-case, trim, collapse whitespace, strip punctuation, decompose, and
remove combining marks — in exactly that order. -/
def normalizeString (v : Option String) : List Char :=
  match v with
  | none => []
  | some s =>
    stripMarks (((removePunct (collapseWs (jsTrim (s.data.map jsToLower)))).map nfd).flatten)

/-! ## Edit distance (`levenshteinDistance`) -/

/-- Inner loop of the DP in `levenshteinDistance`: one pass over `str2`.
`pairs` holds `(str2[j-1], row[j])` for the remaining columns, `prev` is the
value the code keeps in its `prev` variable and `left` is the freshly written
cell to the left (`row[j-1]`). -/
def levInner (c : Char) : List (Char × ℕ) → ℕ → ℕ → List ℕ
  | [], _, _ => []
  | (c2, val) :: rest, prev, left =>
    let nv := if c = c2 then prev else min (min (left + 1) (prev + 1)) (val + 1)
    nv :: levInner c rest val nv

/-- Outer loop of the DP: one `levInner` pass per character of `str1`,
starting from row index `i = 1`.  `tail` is the row without its never-written
cell `row[0] = 0`. -/
def levLoop (s2 : List Char) : List Char → ℕ → List ℕ → List ℕ
  | [], _, tail => tail
  | c :: cs, i, tail => levLoop s2 cs (i + 1) (levInner c (s2.zip tail) i 0)

/-- The single-array DP of `levenshteinDistance` after all trimming, returning
`row[len2]`.  The initial row is `row[i] = i`, so its tail is `[1, …, len2]`. -/
def levDP (s1 s2 : List Char) : ℕ :=
  (levLoop s2 s1 1 (List.range' 1 s2.length)).getLastD 0

/-- The `while` loop trimming the common leading characters of both strings
(the loop stops as soon as either string is exhausted or the heads differ). -/
def trimCommonLead : List Char → List Char → List Char × List Char
  | [], t => ([], t)
  | s, [] => (s, [])
  | a :: s, b :: t => if a = b then trimCommonLead s t else (a :: s, b :: t)

/-- The `while` loop trimming the common trailing characters of both strings. -/
def trimCommonTail (a b : List Char) : List Char × List Char :=
  let p := trimCommonLead a.reverse b.reverse
  (p.1.reverse, p.2.reverse)

/-- `levenshteinDistance` from the source: identical-string and empty-string
short circuits, common lead/tail trimming, then the single-array DP. -/
def levenshteinDistance (s1 s2 : List Char) : ℕ :=
  if s1 = s2 then 0
  else if s1 = [] then s2.length
  else if s2 = [] then s1.length
  else
    let p := trimCommonLead s1 s2
    let q := trimCommonTail p.1 p.2
    if q.1 = [] then q.2.length
    else if q.2 = [] then q.1.length
    else levDP q.1 q.2

/-- Reference definition, following the specification's words: the classic
Levenshtein distance (minimum number of single-character insertions,
deletions, or substitutions), taken from Mathlib's edit-distance theory with
every operation costing 1. -/
def classicLevenshtein (a b : List Char) : ℕ :=
  levenshtein Levenshtein.defaultCost a b

/-- `calculateSimilarity` from the source: `0` when either string is empty
(falsy), otherwise `1 - distance / max(len1, len2)`. -/
def calculateSimilarity (s1 s2 : List Char) : ℚ :=
  if s1 = [] ∨ s2 = [] then 0
  else 1 - (levenshteinDistance s1 s2 : ℚ) / ((max s1.length s2.length : ℕ) : ℚ)

/-! ## Guest matching (`matchGuest`) -/

/-- A guest record as consumed by the matcher.  Absent spreadsheet cells are
`none`; JavaScript also treats the empty string as absent (falsiness), which
`presentVal` below accounts for. -/
structure Guest where
  firstName : Option String
  lastName : Option String
  fullName : Option String
deriving DecidableEq, Repr

/-- Property lookup `guest[field]` for the field names this module uses. -/
def getField (g : Guest) (f : String) : Option String :=
  if f = "fullName" then g.fullName
  else if f = "firstName" then g.firstName
  else if f = "lastName" then g.lastName
  else none

/-- JavaScript truthiness of an optional string: `none` for `null`/`undefined`
and for the empty string. -/
def presentVal : Option String → Option String
  | some s => if s = "" then none else some s
  | none => none

/-- The distance cutoff test: `maxDistance` is `some m` for a numeric bound
and `none` for `Infinity` (no cutoff). -/
def distOk (md : Option ℕ) (d : ℕ) : Bool :=
  match md with
  | some m => decide (d ≤ m)
  | none => true

/-- `String.prototype.includes`: does the haystack contain the needle as a
contiguous substring? -/
def hasSub (needle : List Char) : List Char → Bool
  | [] => needle.isEmpty
  | hay@(_ :: t) => needle.isPrefixOf hay || hasSub needle t

/-- The score of one candidate representation: base similarity, then the
substring boost (`max` with 0.85), then the leading-match boost
(`max` with 0.9) — in the order the source applies them. -/
def boostScore (q nf : List Char) : ℚ :=
  let base := calculateSimilarity q nf
  let s1 := if hasSub q nf then max base 0.85 else base
  if q.isPrefixOf nf then max s1 0.9 else s1

/-- Result of matching one query against one guest. -/
structure MatchResult where
  score : ℚ
  matchedField : Option String
  distance : Option ℕ
deriving DecidableEq, Repr

/-- The score a configured simple field contributes, if the field is present
and within the distance cutoff. -/
def fieldScore (q : List Char) (md : Option ℕ) (g : Guest) (f : String) : Option ℚ :=
  match presentVal (getField g f) with
  | none => none
  | some v =>
    let nf := normalizeString (some v)
    if distOk md (levenshteinDistance q nf) then some (boostScore q nf) else none

/-- One iteration of the `searchFields.forEach` loop in `matchGuest`,
updating the `(bestScore, bestField)` accumulator. -/
def stepField (q : List Char) (md : Option ℕ) (g : Guest) (acc : ℚ × Option String)
    (f : String) : ℚ × Option String :=
  match presentVal (getField g f) with
  | none => acc
  | some v =>
    let nf := normalizeString (some v)
    if distOk md (levenshteinDistance q nf) then
      let score := boostScore q nf
      if acc.1 < score then (score, some f) else acc
    else acc

/-- The combined-name (and reversed-name) block of `matchGuest`: score the
given concatenation and record it under the label `fullName`. -/
def stepCombined (q : List Char) (md : Option ℕ) (name : String)
    (acc : ℚ × Option String) : ℚ × Option String :=
  let nf := normalizeString (some name)
  if distOk md (levenshteinDistance q nf) then
    let score := boostScore q nf
    if acc.1 < score then (score, some "fullName") else acc
  else acc

/-- The final `distance` recomputation in `matchGuest`: against
`guest[bestField]` when that property is truthy, otherwise against the
`firstName + " " + lastName` concatenation when both names are present. -/
def recomputedDistance (q : List Char) (g : Guest) (bf : Option String) : Option ℕ :=
  let combinedFallback : Option ℕ :=
    match presentVal g.firstName, presentVal g.lastName with
    | some fn, some ln => some (levenshteinDistance q (normalizeString (some (fn ++ " " ++ ln))))
    | _, _ => none
  match bf with
  | some f =>
    match presentVal (getField g f) with
    | some v => some (levenshteinDistance q (normalizeString (some v)))
    | none => combinedFallback
  | none => combinedFallback

/-- The `(bestScore, bestField)` accumulator of `matchGuest` after the
`searchFields` loop and the two combined-name blocks. -/
def matchAcc (q : List Char) (g : Guest) (searchFields : List String)
    (md : Option ℕ) : ℚ × Option String :=
  let acc1 := searchFields.foldl (stepField q md g) (0, none)
  let acc2 :=
    match presentVal g.firstName, presentVal g.lastName with
    | some fn, some ln => stepCombined q md (fn ++ " " ++ ln) acc1
    | _, _ => acc1
  match presentVal g.firstName, presentVal g.lastName with
  | some fn, some ln => stepCombined q md (ln ++ " " ++ fn) acc2
  | _, _ => acc2

/-- `matchGuest` from the source: fold the simple fields, then try the
`first + " " + last` and `last + " " + first` concatenations, and return the
best result (or `none` when no candidate scored above 0). -/
def matchGuest (q : List Char) (g : Guest) (searchFields : List String)
    (md : Option ℕ) : Option MatchResult :=
  let acc3 := matchAcc q g searchFields md
  if 0 < acc3.1 then some ⟨acc3.1, acc3.2, recomputedDistance q g acc3.2⟩ else none

/-! ## Search orchestration (`fuzzySearchGuests`) -/

/-- The options record with its default values. -/
structure SearchOptions where
  maxDistance : ℕ := 3
  minSimilarity : ℚ := 0.6
  searchFields : List String := ["fullName", "firstName", "lastName"]
deriving DecidableEq, Repr

/-- One entry of the result list of `fuzzySearchGuests`. -/
structure SearchMatch where
  guest : Guest
  score : ℚ
  matchedField : Option String
  distance : Option ℕ
deriving DecidableEq, Repr

/-- Descending-score comparison used by `matches.sort((a, b) => b.score - a.score)`. -/
def matchLE (a b : SearchMatch) : Prop := b.score ≤ a.score

instance : DecidableRel matchLE := fun a b => inferInstanceAs (Decidable (b.score ≤ a.score))

instance : IsTotal SearchMatch matchLE := ⟨fun a b => le_total b.score a.score⟩

instance : IsTrans SearchMatch matchLE := ⟨fun _ _ _ h1 h2 => le_trans h2 h1⟩

/-- The effective similarity threshold: `0.8` for normalized queries of length
at most 2, else the configured `minSimilarity`. -/
def effectiveMinSimilarity (nq : List Char) (minSim : ℚ) : ℚ :=
  if nq.length ≤ 2 then 0.8 else minSim

/-- `fuzzySearchGuests` from the source: empty-query guard, query
normalization, short-query threshold, per-guest matching with the threshold
filter, and the stable descending sort by score. -/
def fuzzySearchGuests (query : String) (guests : List Guest)
    (opts : SearchOptions) : List SearchMatch :=
  if jsTrim query.data = [] then []
  else
    let nq := normalizeString (some query)
    let effMin := effectiveMinSimilarity nq opts.minSimilarity
    let found := guests.filterMap fun g =>
      match matchGuest nq g opts.searchFields (some opts.maxDistance) with
      | some r => if effMin ≤ r.score then some ⟨g, r.score, r.matchedField, r.distance⟩ else none
      | none => none
    List.insertionSort matchLE found

/-! ## Candidate representations (for stating what the "winning" score is) -/

/-- All candidate representations `matchGuest` evaluates for a guest, in
evaluation order, labelled the way the code labels them. -/
def candidateReprs (g : Guest) (fields : List String) : List (String × List Char) :=
  (fields.filterMap fun f => (presentVal (getField g f)).map fun v => (f, normalizeString (some v)))
    ++ (match presentVal g.firstName, presentVal g.lastName with
        | some fn, some ln =>
          [("fullName", normalizeString (some (fn ++ " " ++ ln))),
           ("fullName", normalizeString (some (ln ++ " " ++ fn)))]
        | _, _ => [])

/-- The boosted scores of the candidate representations that survive the
distance cutoff. -/
def qualifyingScores (q : List Char) (g : Guest) (fields : List String)
    (md : Option ℕ) : List ℚ :=
  ((candidateReprs g fields).filter fun p => distOk md (levenshteinDistance q p.2)).map
    fun p => boostScore q p.2

/-! ## Concrete records used in the examples -/

/-- The default list of searched fields. -/
def defaultFields : List String := ["fullName", "firstName", "lastName"]

/-- A guest reachable only through the reversed `last + " " + first` form. -/
def gReversedOnly : Guest := ⟨some "John", some "Smith", none⟩

/-- A guest whose full name contains (but does not start with) "ab". -/
def gXab : Guest := ⟨none, none, some "xab"⟩

/-- Exact-match guest of the ranking example. -/
def gJohnSmith : Guest := ⟨none, none, some "John Smith"⟩

/-- One-edit-distance guest of the ranking example. -/
def gJonSmith : Guest := ⟨none, none, some "Jon Smith"⟩

/-- A guest with a three-letter name. -/
def gAnn : Guest := ⟨none, none, some "Ann"⟩

/-- Options raising `minSimilarity` above the short-query floor. -/
def opts09 : SearchOptions := { minSimilarity := 0.9 }

/-- The invariant of the DP row: the cell at column `j` (counting from the
starting column of the list) is at most `max i j`, where `i` is the number of
processed rows.  Stated positionally to follow the row lists around. -/
def boundedFrom (i : ℕ) : ℕ → List ℕ → Prop
  | _, [] => True
  | j, v :: rest => v ≤ max i j ∧ boundedFrom i (j + 1) rest

/-! ## General lemmas about the boosted score -/

theorem boost_formula (b : ℚ) (inb pre : Bool) :
    (if pre then max (if inb then max b 0.85 else b) 0.9
     else if inb then max b 0.85 else b) =
      max b (max (if pre then (0.9 : ℚ) else b) (if inb then (0.85 : ℚ) else b)) := by
  cases inb <;> cases pre <;> simp only [if_true, if_false, Bool.false_eq_true, ite_true, ite_false]
  · rw [max_self, max_self]
  · rw [max_comm (0.9 : ℚ) b, ← max_assoc, max_self]
  · rw [← max_assoc, max_self]
  · rw [max_assoc, show max (0.85 : ℚ) 0.9 = 0.9 from by norm_num,
      show max (0.9 : ℚ) 0.85 = 0.9 from by norm_num]

theorem boostScore_eq (q nf : List Char) :
    boostScore q nf =
      max (calculateSimilarity q nf)
        (max (if q.isPrefixOf nf then (0.9 : ℚ) else calculateSimilarity q nf)
          (if hasSub q nf then (0.85 : ℚ) else calculateSimilarity q nf)) :=
  boost_formula (calculateSimilarity q nf) (hasSub q nf) (q.isPrefixOf nf)

theorem base_le_boostScore (q nf : List Char) :
    calculateSimilarity q nf ≤ boostScore q nf := by
  rw [boostScore_eq]; exact le_max_left _ _

/-! ## Claim theorems -/

/-- C1: the claim says `levenshteinDistance` equals the classic Levenshtein
distance on all inputs (the trimming being a pure optimization).  It does
not: on the pair ("flaw", "lawn") — a test pair of the repository's own
`test_lev.js`, expected value 2 — the code returns 3 while the classic
distance is 2.  The buggy DP initialization (`prev = i` instead of `i - 1`,
and `row[0]` never updated to `i`) is the cause. -/
theorem c1_code_disagrees_with_classic :
    levenshteinDistance "flaw".data "lawn".data = 3 ∧
    classicLevenshtein "flaw".data "lawn".data = 2 :=
  ⟨by decide, by decide⟩

/-- C8: `levenshteinDistance s s = 0` does hold (short-circuit), but the
claimed symmetry fails: the code gives distance 2 from "a" to "bb" and
distance 1 from "bb" to "a" (the classic distance is 2 both ways). -/
theorem c8_code_not_symmetric :
    (∀ s : List Char, levenshteinDistance s s = 0) ∧
    levenshteinDistance "a".data "bb".data = 2 ∧
    levenshteinDistance "bb".data "a".data = 1 := by
  refine ⟨fun s => ?_, by decide, by decide⟩
  unfold levenshteinDistance
  rw [if_pos rfl]

/-- C2: in `matchGuest`, for *every* candidate representation — a configured
simple field, the combined `first + " " + last` form, or the reversed
`last + " " + first` form (all listed by `candidateReprs`) — whose edit
distance to the normalized query does not exceed `maxDistance`, the
candidate's final score `boostScore q nf` is among the scores `matchGuest`
maximizes over (`qualifyingScores`, see `matchAcc_fst`), and it equals
exactly the maximum of the base similarity, 0.9 when the representation
starts with the query, and 0.85 when it contains the query — the boosts are
floors applied by `max`, never additive, and never lower the score below the
base similarity. -/
theorem c2_boosts_are_floors (q : List Char) (g : Guest) (fields : List String)
    (md : Option ℕ) (fld : String) (nf : List Char)
    (hc : (fld, nf) ∈ candidateReprs g fields)
    (hd : distOk md (levenshteinDistance q nf) = true) :
    boostScore q nf ∈ qualifyingScores q g fields md ∧
    boostScore q nf =
      max (calculateSimilarity q nf)
        (max (if q.isPrefixOf nf then (0.9 : ℚ) else calculateSimilarity q nf)
          (if hasSub q nf then (0.85 : ℚ) else calculateSimilarity q nf)) ∧
    calculateSimilarity q nf ≤ boostScore q nf := by
  refine ⟨?_, boostScore_eq q nf, base_le_boostScore q nf⟩
  rw [qualifyingScores]
  apply List.mem_map.mpr
  refine ⟨(fld, nf), ?_, rfl⟩
  exact List.mem_filter.mpr ⟨hc, hd⟩

/-- Witness for C2 at a concrete input exercising the reversed
`last + " " + first` representation: for the guest with first name "John" and
last name "Smith" (no full name), the reversed candidate "smith john" is a
candidate representation, qualifies at distance 0, and its boosted score
satisfies the floor formula. -/
theorem c2_boosts_are_floors_witness :
    boostScore "smith john".data "smith john".data ∈
      qualifyingScores "smith john".data gReversedOnly defaultFields (some 3) ∧
    boostScore "smith john".data "smith john".data =
      max (calculateSimilarity "smith john".data "smith john".data)
        (max (if List.isPrefixOf "smith john".data "smith john".data then (0.9 : ℚ)
              else calculateSimilarity "smith john".data "smith john".data)
          (if hasSub "smith john".data "smith john".data then (0.85 : ℚ)
           else calculateSimilarity "smith john".data "smith john".data)) ∧
    calculateSimilarity "smith john".data "smith john".data ≤
      boostScore "smith john".data "smith john".data :=
  c2_boosts_are_floors "smith john".data gReversedOnly defaultFields (some 3)
    "fullName" "smith john".data (by decide) (by decide)

/-- C3 counterexample: for the guest with `firstName = "John"`,
`lastName = "Smith"` and no `fullName`, the query "smith john" wins through
the reversed representation (score 1, label `fullName`), whose edit distance
to the query is 0 — but the returned `distance` is 8, recomputed against the
`first + " " + last` concatenation instead of the winning representation. -/
theorem c3_distance_not_of_winner :
    matchGuest (normalizeString (some "Smith John")) gReversedOnly defaultFields (some 3)
      = some ⟨1, some "fullName", some 8⟩ ∧
    levenshteinDistance (normalizeString (some "Smith John"))
        (normalizeString (some ("Smith" ++ " " ++ "John"))) = 0 :=
  ⟨by decide, by decide⟩

/-- C4 counterexample: with configured `minSimilarity = 0.9` and the
two-character query "ab", the effective threshold is 0.8 — *below* the
configured minimum, contradicting "never below the configured minSimilarity" —
and the search indeed returns a match scoring 0.85 < 0.9. -/
theorem c4_threshold_replaced_not_raised :
    effectiveMinSimilarity (normalizeString (some "ab")) opts09.minSimilarity = 0.8 ∧
    (0.8 : ℚ) < opts09.minSimilarity ∧
    (fuzzySearchGuests "ab" [gXab] opts09).map SearchMatch.score = [0.85] ∧
    (0.85 : ℚ) < opts09.minSimilarity :=
  ⟨by decide, by decide, by decide, by decide⟩

/-- C5 counterexample: normalization removes punctuation only *after*
collapsing whitespace, so "a . b" normalizes to "a  b", which contains a run
of two spaces — contradicting the claim that the output has no internal run
of more than one space. -/
theorem c5_double_space_survives :
    normalizeString (some "a . b") = ['a', ' ', ' ', 'b'] ∧
    hasSub [' ', ' '] (normalizeString (some "a . b")) = true :=
  ⟨by decide, by decide⟩

/-- C6: an empty or whitespace-only query makes `fuzzySearchGuests` return
the empty list immediately, for every guest collection and options. -/
theorem c6_blank_query_yields_nil (q : String) (guests : List Guest)
    (opts : SearchOptions) (h : jsTrim q.data = []) :
    fuzzySearchGuests q guests opts = [] := by
  unfold fuzzySearchGuests
  rw [if_pos h]

/-- Witness for C6 at the concrete input of the claim: the empty query
against a non-empty guest list. -/
theorem c6_blank_query_yields_nil_witness :
    fuzzySearchGuests "" [gAnn] {} = [] :=
  c6_blank_query_yields_nil "" [gAnn] {} (by decide)

/-! ## The DP row invariant: every cell of row `i` at column `j` is at most
`max i j`, hence the returned distance is at most the longer length. -/

theorem boundedFrom_mono {i i' : ℕ} (h : i ≤ i') :
    ∀ (l : List ℕ) (j : ℕ), boundedFrom i j l → boundedFrom i' j l
  | [], _, _ => trivial
  | _ :: rest, j, hb => by
    obtain ⟨h1, h2⟩ := hb
    exact ⟨by omega, boundedFrom_mono h rest (j + 1) h2⟩

theorem le_of_mem_boundedFrom :
    ∀ (l : List ℕ) (i j x : ℕ), boundedFrom i j l → x ∈ l →
      x ≤ max i (j + l.length - 1)
  | v :: rest, i, j, x, hb, hmem => by
    obtain ⟨h1, h2⟩ := hb
    rcases List.mem_cons.mp hmem with hx | hx
    · subst hx
      simp only [List.length_cons]
      omega
    · have := le_of_mem_boundedFrom rest i (j + 1) x h2 hx
      simp only [List.length_cons]
      rcases rest with - | ⟨w, rest'⟩
      · simp at hx
      · simp only [List.length_cons] at this ⊢
        omega

theorem getLastD_le_of_boundedFrom (l : List ℕ) (i j : ℕ) (hb : boundedFrom i j l) :
    l.getLastD 0 ≤ max i (j + l.length - 1) := by
  rcases List.mem_cons.mp (List.getLastD_mem_cons l 0) with h0 | hmem
  · rw [h0]; exact Nat.zero_le _
  · exact le_of_mem_boundedFrom l i j _ hb hmem

theorem levInner_length (c : Char) :
    ∀ (pairs : List (Char × ℕ)) (prev left : ℕ),
      (levInner c pairs prev left).length = pairs.length
  | [], _, _ => rfl
  | (_, val) :: rest, prev, left => by
    simp [levInner, levInner_length c rest val]

theorem levInner_le (c : Char) (i : ℕ) (hi : 1 ≤ i) :
    ∀ (pairs : List (Char × ℕ)) (j₀ prev left : ℕ),
      (j₀ = 0 → left = 0 ∧ prev = i) →
      (1 ≤ j₀ → prev ≤ max (i - 1) j₀) →
      boundedFrom (i - 1) (j₀ + 1) (pairs.map Prod.snd) →
      boundedFrom i (j₀ + 1) (levInner c pairs prev left)
  | [], _, _, _, _, _, _ => trivial
  | (c2, val) :: rest, j₀, prev, left, h0, h1, hp => by
    obtain ⟨hval, hrest⟩ := hp
    refine ⟨?_, ?_⟩
    · rcases Nat.eq_zero_or_pos j₀ with hj | hj
      · obtain ⟨hl, hpv⟩ := h0 hj
        subst hl; subst hpv; subst hj
        split <;> omega
      · have hpv := h1 hj
        split <;> omega
    · exact levInner_le c i hi rest (j₀ + 1) val _
        (fun h => absurd h (by omega)) (fun _ => hval) hrest

theorem levLoop_le (s2 : List Char) :
    ∀ (cs : List Char) (i : ℕ) (tail : List ℕ), 1 ≤ i →
      tail.length = s2.length →
      boundedFrom (i - 1) 1 tail →
      (levLoop s2 cs i tail).length = s2.length ∧
        boundedFrom (i - 1 + cs.length) 1 (levLoop s2 cs i tail)
  | [], i, tail, _, hlen, hb => by
    refine ⟨hlen, ?_⟩
    simpa using hb
  | c :: cs, i, tail, hi, hlen, hb => by
    have hnewlen : (levInner c (s2.zip tail) i 0).length = s2.length := by
      rw [levInner_length, List.length_zip, hlen, Nat.min_self]
    have hmapsnd : (s2.zip tail).map Prod.snd = tail :=
      List.map_snd_zip _ _ (le_of_eq hlen)
    have hnewb : boundedFrom i 1 (levInner c (s2.zip tail) i 0) := by
      have h := levInner_le c i hi (s2.zip tail) 0 i 0
        (fun _ => ⟨rfl, rfl⟩) (fun h => absurd h (by omega))
        (by rw [hmapsnd]; exact hb)
      simpa using h
    have hstep := levLoop_le s2 cs (i + 1) (levInner c (s2.zip tail) i 0)
      (by omega) hnewlen (by simpa using hnewb)
    refine ⟨?_, ?_⟩
    · simpa [levLoop] using hstep.1
    · have h2 := hstep.2
      have heq : i + 1 - 1 + cs.length = i - 1 + (c :: cs).length := by
        simp only [List.length_cons]
        omega
      rw [heq] at h2
      simpa [levLoop] using h2

theorem boundedFrom_range' : ∀ (n s : ℕ), boundedFrom 0 s (List.range' s n)
  | 0, _ => trivial
  | n + 1, s => ⟨by omega, boundedFrom_range' n (s + 1)⟩

theorem levDP_le (s1 s2 : List Char) : levDP s1 s2 ≤ max s1.length s2.length := by
  unfold levDP
  obtain ⟨hflen, hfb⟩ := levLoop_le s2 s1 1 (List.range' 1 s2.length) (le_refl 1)
    (by simp) (by simpa using boundedFrom_range' s2.length 1)
  have h := getLastD_le_of_boundedFrom _ _ _ hfb
  rw [hflen] at h
  omega

theorem trimCommonLead_len : ∀ (a b : List Char),
    (trimCommonLead a b).1.length ≤ a.length ∧ (trimCommonLead a b).2.length ≤ b.length
  | [], b => by simp [trimCommonLead]
  | a :: s, [] => by simp [trimCommonLead]
  | a :: s, b :: t => by
    by_cases h : a = b
    · have hrec := trimCommonLead_len s t
      simp only [trimCommonLead, if_pos h, List.length_cons]
      omega
    · simp [trimCommonLead, if_neg h]

theorem trimCommonTail_len (a b : List Char) :
    (trimCommonTail a b).1.length ≤ a.length ∧ (trimCommonTail a b).2.length ≤ b.length := by
  have h := trimCommonLead_len a.reverse b.reverse
  simpa [trimCommonTail] using h

theorem levenshteinDistance_le_max (a b : List Char) :
    levenshteinDistance a b ≤ max a.length b.length := by
  have hp := trimCommonLead_len a b
  have hq := trimCommonTail_len (trimCommonLead a b).1 (trimCommonLead a b).2
  have hdp := levDP_le (trimCommonTail (trimCommonLead a b).1 (trimCommonLead a b).2).1
    (trimCommonTail (trimCommonLead a b).1 (trimCommonLead a b).2).2
  rw [levenshteinDistance]
  split_ifs with h1 h2 h3
  · omega
  · omega
  · omega
  · dsimp only
    split_ifs with h4 h5 <;> omega

/-- C7: `calculateSimilarity` is 0 when either string is empty, is otherwise
exactly `1 - distance / max(len1, len2)`, always lies in `[0, 1]` (the code's
distance never exceeds the longer length), and equals 1 on every non-empty
string compared with itself. -/
theorem c7_similarity_bounds (a b : List Char) :
    ((a = [] ∨ b = []) → calculateSimilarity a b = 0) ∧
    (a ≠ [] → b ≠ [] →
      calculateSimilarity a b =
        1 - (levenshteinDistance a b : ℚ) / ((max a.length b.length : ℕ) : ℚ)) ∧
    0 ≤ calculateSimilarity a b ∧ calculateSimilarity a b ≤ 1 ∧
    (a ≠ [] → calculateSimilarity a a = 1) := by
  refine ⟨fun h => by rw [calculateSimilarity, if_pos h], fun h1 h2 => by
    rw [calculateSimilarity, if_neg (by tauto)], ?_, ?_, fun h => ?_⟩
  · rw [calculateSimilarity]
    split_ifs with h
    · exact le_refl 0
    · rcases not_or.mp h with ⟨ha, hb⟩
      have hM : (0 : ℚ) < ((max a.length b.length : ℕ) : ℚ) := by
        have : 0 < max a.length b.length := by
          have : a.length ≠ 0 := fun hz => ha (List.length_eq_zero.mp hz)
          omega
        exact_mod_cast this
      have hle : (levenshteinDistance a b : ℚ) ≤ ((max a.length b.length : ℕ) : ℚ) := by
        exact_mod_cast levenshteinDistance_le_max a b
      have := div_le_one_of_le₀ hle (le_of_lt hM)
      linarith
  · rw [calculateSimilarity]
    split_ifs with h
    · norm_num
    · have hM : (0 : ℚ) ≤ ((max a.length b.length : ℕ) : ℚ) := by positivity
      have hd : (0 : ℚ) ≤ (levenshteinDistance a b : ℚ) := by positivity
      have := div_nonneg hd hM
      linarith
  · rw [calculateSimilarity, if_neg (by tauto)]
    rw [show levenshteinDistance a a = 0 from by rw [levenshteinDistance, if_pos rfl]]
    simp

/-! ## Character-level guarantees of the normalizer -/

theorem char_toNat_ofNat {n : ℕ} (h : n.isValidChar) : (Char.ofNat n).toNat = n := by
  rw [Char.ofNat, dif_pos h]
  rfl

theorem jsToLower_not_upper (c : Char) :
    ¬(65 ≤ (jsToLower c).toNat ∧ (jsToLower c).toNat ≤ 90) := by
  rw [jsToLower]
  split_ifs with h1 h2
  · rw [char_toNat_ofNat (Or.inl (by omega))]
    omega
  · rw [char_toNat_ofNat (Or.inl (by omega))]
    omega
  · exact h1

theorem mem_jsTrim (c : Char) (l : List Char) (h : c ∈ jsTrim l) : c ∈ l := by
  rw [jsTrim, List.mem_reverse] at h
  have h2 := (List.dropWhile_sublist jsWhitespace).subset h
  rw [List.mem_reverse] at h2
  exact (List.dropWhile_sublist jsWhitespace).subset h2

theorem mem_collapseWs (c : Char) : ∀ (l : List Char), c ∈ collapseWs l →
    (jsWhitespace c = true → c = ' ') ∧ (c = ' ' ∨ c ∈ l)
  | [], h => by simp [collapseWs] at h
  | [c1], h => by
    simp only [collapseWs] at h
    split at h
    · rcases List.mem_singleton.mp h with rfl
      exact ⟨fun _ => rfl, Or.inl rfl⟩
    · rcases List.mem_singleton.mp h with rfl
      rename_i hns
      exact ⟨fun hws => absurd hws hns, Or.inr (List.mem_singleton.mpr rfl)⟩
  | c1 :: c2 :: t, h => by
    rw [show collapseWs (c1 :: c2 :: t) =
        (if jsWhitespace c1 then
          (if jsWhitespace c2 then collapseWs (c2 :: t) else ' ' :: collapseWs (c2 :: t))
         else c1 :: collapseWs (c2 :: t)) from rfl] at h
    by_cases h1 : jsWhitespace c1 = true
    · rw [if_pos h1] at h
      by_cases h2 : jsWhitespace c2 = true
      · rw [if_pos h2] at h
        have ih := mem_collapseWs c (c2 :: t) h
        exact ⟨ih.1, ih.2.imp id (List.mem_cons_of_mem c1)⟩
      · rw [if_neg h2] at h
        rcases List.mem_cons.mp h with rfl | h
        · exact ⟨fun _ => rfl, Or.inl rfl⟩
        · have ih := mem_collapseWs c (c2 :: t) h
          exact ⟨ih.1, ih.2.imp id (List.mem_cons_of_mem c1)⟩
    · rw [if_neg h1] at h
      rcases List.mem_cons.mp h with rfl | h
      · exact ⟨fun hws => absurd hws h1, Or.inr (List.mem_cons_self _ _)⟩
      · have ih := mem_collapseWs c (c2 :: t) h
        exact ⟨ih.1, ih.2.imp id (List.mem_cons_of_mem c1)⟩

theorem nfd_cases (c c' : Char) (h : c' ∈ nfd c) :
    c' = c ∨ ∃ p ∈ nfdTable, c' ∈ p.2 := by
  rw [nfd] at h
  cases hfind : nfdTable.find? fun p => p.1 = c with
  | none =>
    rw [hfind] at h
    exact Or.inl (List.mem_singleton.mp h)
  | some p =>
    rw [hfind] at h
    exact Or.inr ⟨p, List.mem_of_find?_eq_some hfind, h⟩

theorem nfdTable_outputs_ok :
    ∀ p ∈ nfdTable, ∀ c ∈ p.2,
      (!punctChar c && !decide (65 ≤ c.toNat ∧ c.toNat ≤ 90) && !jsWhitespace c) = true := by
  decide

/-- C5 amended: normalization yields the empty string for `null` input and an
output free of the punctuation characters, of combining diacritical marks, of
any whitespace other than the plain space, and of ASCII uppercase letters;
"José" and "Jose" normalize identically.  However, because punctuation is
removed only *after* whitespace collapsing, the output may still contain
leading/trailing spaces or runs of two spaces (see the counterexample). -/
theorem c5_amended_normalization (s : String) :
    normalizeString none = [] ∧
    (normalizeString (some s)).all (fun c =>
      !punctChar c && !combiningMark c && (!jsWhitespace c || c == ' ') &&
        !decide (65 ≤ c.toNat ∧ c.toNat ≤ 90)) = true ∧
    normalizeString (some "José") = normalizeString (some "Jose") ∧
    normalizeString (some "Jose") = "jose".data ∧
    normalizeString (some "  John  Smith  ") = "john smith".data := by
  refine ⟨rfl, ?_, by decide, by decide, by decide⟩
  rw [List.all_eq_true]
  intro c hc
  rw [normalizeString, stripMarks] at hc
  obtain ⟨hcX, hmark⟩ := List.mem_filter.mp hc
  rw [List.mem_flatten] at hcX
  obtain ⟨lc, hlc, hcin⟩ := hcX
  rcases List.mem_map.mp hlc with ⟨c0, hc0Y, rfl⟩
  have hmark' : combiningMark c = false := by
    rw [← Bool.not_eq_true', hmark]
  rcases nfd_cases c0 c hcin with rfl | ⟨p, hp, hcp⟩
  · -- the character survived decomposition unchanged
    obtain ⟨hcZ, hpunct⟩ := List.mem_filter.mp hc0Y
    have hpunct' : punctChar c = false := by
      rw [← Bool.not_eq_true', hpunct]
    have hcol := mem_collapseWs c _ hcZ
    have hupper : ¬(65 ≤ c.toNat ∧ c.toNat ≤ 90) := by
      rcases hcol.2 with rfl | hintrim
      · decide
      · rcases List.mem_map.mp (mem_jsTrim c _ hintrim) with ⟨c1, -, rfl⟩
        exact jsToLower_not_upper c1
    cases hws : jsWhitespace c with
    | false => simp [hpunct', hmark', hupper, hws]
    | true =>
      have hsp := hcol.1 hws
      subst hsp
      decide
  · -- the character came out of the decomposition table
    have hok := nfdTable_outputs_ok p hp c hcp
    simp only [Bool.and_eq_true, Bool.not_eq_true'] at hok
    simp [hok.1.1, hok.1.2, hok.2, hmark']

theorem foldl_max_eq_or_mem : ∀ (l : List ℚ) (a : ℚ),
    l.foldl max a = a ∨ l.foldl max a ∈ l
  | [], _ => Or.inl rfl
  | x :: rest, a => by
    rw [List.foldl_cons]
    rcases foldl_max_eq_or_mem rest (max a x) with h | h
    · rw [h]
      rcases max_cases a x with ⟨hm, _⟩ | ⟨hm, _⟩
      · exact Or.inl hm
      · exact Or.inr (by rw [hm]; exact List.mem_cons_self x rest)
    · exact Or.inr (List.mem_cons_of_mem _ h)

theorem le_foldl_max : ∀ (l : List ℚ) (a : ℚ),
    a ≤ l.foldl max a ∧ ∀ x ∈ l, x ≤ l.foldl max a
  | [], a => ⟨le_refl a, by simp⟩
  | x :: rest, a => by
    obtain ⟨h1, h2⟩ := le_foldl_max rest (max a x)
    refine ⟨le_trans (le_max_left a x) h1, ?_⟩
    intro y hy
    rcases List.mem_cons.mp hy with rfl | hy
    · exact le_trans (le_max_right a y) h1
    · exact h2 y hy

theorem stepField_eq (q : List Char) (md : Option ℕ) (g : Guest)
    (acc : ℚ × Option String) (f : String) :
    stepField q md g acc f =
      match fieldScore q md g f with
      | none => acc
      | some s => if acc.1 < s then (s, some f) else acc := by
  rw [stepField, fieldScore]
  cases hv : presentVal (getField g f) with
  | none => rfl
  | some v =>
    dsimp only
    split
    · rfl
    · rfl

theorem stepField_fst (q : List Char) (md : Option ℕ) (g : Guest)
    (acc : ℚ × Option String) (f : String) :
    (stepField q md g acc f).1 =
      match fieldScore q md g f with
      | none => acc.1
      | some s => max acc.1 s := by
  rw [stepField_eq]
  cases fieldScore q md g f with
  | none => rfl
  | some s =>
    dsimp only
    rcases lt_or_ge acc.1 s with h | h
    · rw [if_pos h, max_eq_right (le_of_lt h)]
    · rw [if_neg (not_lt.mpr h), max_eq_left h]

theorem stepField_snd (q : List Char) (md : Option ℕ) (g : Guest)
    (acc : ℚ × Option String) (f : String) :
    (stepField q md g acc f).2 = acc.2 ∨ (stepField q md g acc f).2 = some f := by
  rw [stepField_eq]
  cases fieldScore q md g f with
  | none => exact Or.inl rfl
  | some s =>
    dsimp only
    split
    · exact Or.inr rfl
    · exact Or.inl rfl

theorem foldl_stepField_fst (q : List Char) (md : Option ℕ) (g : Guest) :
    ∀ (fields : List String) (acc : ℚ × Option String),
      (fields.foldl (stepField q md g) acc).1 =
        (fields.filterMap (fieldScore q md g)).foldl max acc.1
  | [], _ => rfl
  | f :: fs, acc => by
    rw [List.foldl_cons, foldl_stepField_fst q md g fs (stepField q md g acc f)]
    rw [List.filterMap_cons]
    cases hf : fieldScore q md g f with
    | none =>
      have := stepField_fst q md g acc f
      rw [hf] at this
      rw [this]
    | some s =>
      have := stepField_fst q md g acc f
      rw [hf] at this
      rw [this, List.foldl_cons]

theorem foldl_stepField_snd (q : List Char) (md : Option ℕ) (g : Guest) :
    ∀ (fields : List String) (acc : ℚ × Option String),
      (fields.foldl (stepField q md g) acc).2 = acc.2 ∨
        ∃ f ∈ fields, (fields.foldl (stepField q md g) acc).2 = some f
  | [], _ => Or.inl rfl
  | f :: fs, acc => by
    rw [List.foldl_cons]
    rcases foldl_stepField_snd q md g fs (stepField q md g acc f) with h | ⟨f', hf', h⟩
    · rcases stepField_snd q md g acc f with h2 | h2
      · exact Or.inl (h.trans h2)
      · exact Or.inr ⟨f, List.mem_cons_self f fs, h.trans h2⟩
    · exact Or.inr ⟨f', List.mem_cons_of_mem f hf', h⟩

theorem stepCombined_fst (q : List Char) (md : Option ℕ) (name : String)
    (acc : ℚ × Option String) :
    (stepCombined q md name acc).1 =
      if distOk md (levenshteinDistance q (normalizeString (some name)))
      then max acc.1 (boostScore q (normalizeString (some name)))
      else acc.1 := by
  rw [stepCombined]
  split
  · dsimp only
    rcases lt_or_ge acc.1 (boostScore q (normalizeString (some name))) with h | h
    · rw [if_pos h, max_eq_right (le_of_lt h)]
    · rw [if_neg (not_lt.mpr h), max_eq_left h]
  · rfl

theorem stepCombined_snd (q : List Char) (md : Option ℕ) (name : String)
    (acc : ℚ × Option String) :
    (stepCombined q md name acc).2 = acc.2 ∨
      (stepCombined q md name acc).2 = some "fullName" := by
  rw [stepCombined]
  split
  · dsimp only
    split
    · exact Or.inr rfl
    · exact Or.inl rfl
  · exact Or.inl rfl

theorem fields_scores_eq (q : List Char) (md : Option ℕ) (g : Guest) :
    ∀ (fields : List String),
      fields.filterMap (fieldScore q md g) =
        ((fields.filterMap fun f =>
            (presentVal (getField g f)).map fun v => (f, normalizeString (some v))).filter
          fun p => distOk md (levenshteinDistance q p.2)).map fun p => boostScore q p.2
  | [] => rfl
  | f :: fs => by
    simp only [List.filterMap_cons, fieldScore]
    cases hv : presentVal (getField g f) with
    | none => simpa using fields_scores_eq q md g fs
    | some v =>
      by_cases hok : distOk md (levenshteinDistance q (normalizeString (some v))) = true
      · simp [hok, List.filter_cons, fields_scores_eq q md g fs]
      · simp [hok, List.filter_cons, fields_scores_eq q md g fs]

theorem matchAcc_fst (q : List Char) (g : Guest) (fields : List String) (md : Option ℕ) :
    (matchAcc q g fields md).1 = (qualifyingScores q g fields md).foldl max 0 := by
  rw [matchAcc, qualifyingScores, candidateReprs]
  cases hfn : presentVal g.firstName with
  | none =>
    dsimp only
    rw [List.append_nil, foldl_stepField_fst, fields_scores_eq]
  | some fn =>
    cases hln : presentVal g.lastName with
    | none =>
      dsimp only
      rw [List.append_nil, foldl_stepField_fst, fields_scores_eq]
    | some ln =>
      dsimp only
      rw [List.filter_append, List.map_append, List.foldl_append,
        stepCombined_fst, stepCombined_fst, foldl_stepField_fst, fields_scores_eq]
      by_cases hC : distOk md (levenshteinDistance q
          (normalizeString (some (fn ++ " " ++ ln)))) = true <;>
        by_cases hR : distOk md (levenshteinDistance q
          (normalizeString (some (ln ++ " " ++ fn)))) = true <;>
        simp [hC, hR, List.filter_cons]

theorem matchAcc_snd (q : List Char) (g : Guest) (fields : List String) (md : Option ℕ) :
    (matchAcc q g fields md).2 = none ∨
      (∃ f ∈ fields, (matchAcc q g fields md).2 = some f) ∨
      (matchAcc q g fields md).2 = some "fullName" := by
  rw [matchAcc]
  cases hfn : presentVal g.firstName with
  | none =>
    dsimp only
    rcases foldl_stepField_snd q md g fields (0, none) with h | ⟨f, hf, h⟩
    · exact Or.inl h
    · exact Or.inr (Or.inl ⟨f, hf, h⟩)
  | some fn =>
    cases hln : presentVal g.lastName with
    | none =>
      dsimp only
      rcases foldl_stepField_snd q md g fields (0, none) with h | ⟨f, hf, h⟩
      · exact Or.inl h
      · exact Or.inr (Or.inl ⟨f, hf, h⟩)
    | some ln =>
      dsimp only
      rcases stepCombined_snd q md (ln ++ " " ++ fn) _ with h3 | h3
      · rcases stepCombined_snd q md (fn ++ " " ++ ln) _ with h2 | h2
        · rcases foldl_stepField_snd q md g fields (0, none) with h1 | ⟨f, hf, h1⟩
          · exact Or.inl (h3.trans (h2.trans h1))
          · exact Or.inr (Or.inl ⟨f, hf, h3.trans (h2.trans h1)⟩)
        · exact Or.inr (Or.inr (h3.trans h2))
      · exact Or.inr (Or.inr h3)

/-! ## Facts about the empty normalized query -/

theorem levenshteinDistance_nil_left (l : List Char) :
    levenshteinDistance [] l = l.length := by
  cases l with
  | nil => rfl
  | cons c t => rfl

theorem hasSub_nil (l : List Char) : hasSub [] l = true := by
  cases l with
  | nil => rfl
  | cons c t => rfl

theorem isPrefixOf_nil_left (l : List Char) : List.isPrefixOf [] l = true := by
  cases l with
  | nil => rfl
  | cons c t => rfl

theorem boostScore_nil (nf : List Char) : boostScore [] nf = 0.9 := by
  have hbase : calculateSimilarity [] nf = 0 := by
    rw [calculateSimilarity, if_pos (Or.inl rfl)]
  rw [boostScore]
  simp only [hbase, hasSub_nil, isPrefixOf_nil_left, if_true]
  rw [max_eq_right (by norm_num : (0 : ℚ) ≤ 0.85),
    max_eq_right (by norm_num : (0.85 : ℚ) ≤ 0.9)]

/-- Any match produced by `matchGuest` that clears the effective threshold is
in the result of `fuzzySearchGuests` (sorting only permutes the matches). -/
theorem mem_fuzzySearchGuests_of (q : String) (guests : List Guest)
    (opts : SearchOptions) (g : Guest) (r : MatchResult) (hg : g ∈ guests)
    (hguard : ¬jsTrim q.data = [])
    (hmg : matchGuest (normalizeString (some q)) g opts.searchFields
      (some opts.maxDistance) = some r)
    (hsc : effectiveMinSimilarity (normalizeString (some q)) opts.minSimilarity ≤ r.score) :
    (⟨g, r.score, r.matchedField, r.distance⟩ : SearchMatch) ∈
      fuzzySearchGuests q guests opts := by
  rw [fuzzySearchGuests, if_neg hguard]
  dsimp only
  apply (List.perm_insertionSort matchLE _).mem_iff.mpr
  apply List.mem_filterMap.mpr
  refine ⟨g, hg, ?_⟩
  rw [hmg]
  dsimp only
  rw [if_pos hsc]

/-- C9: the result of `fuzzySearchGuests` is always sorted by score in
non-increasing order, and on the two-guest example the exact match
"John Smith" (score 1) is ranked strictly before "Jon Smith" (score 0.9). -/
theorem c9_results_sorted_descending :
    (∀ (q : String) (guests : List Guest) (opts : SearchOptions),
      List.Sorted matchLE (fuzzySearchGuests q guests opts)) ∧
    (fuzzySearchGuests "John Smith" [gJohnSmith, gJonSmith] {}).map
        (fun m => (m.guest, m.score)) = [(gJohnSmith, 1), (gJonSmith, 0.9)] := by
  constructor
  · intro q guests opts
    rw [fuzzySearchGuests]
    split_ifs
    · exact List.sorted_nil
    · exact List.sorted_insertionSort matchLE _
  · decide

/-- C4 amended: every returned match scores at least the effective threshold,
and for normalized queries of length at most 2 that threshold is exactly 0.8 —
regardless of the configured `minSimilarity`, which it replaces rather than
raises (so it is *not* always at least the configured minimum). -/
theorem c4_amended_short_query_threshold (q : String) (guests : List Guest)
    (opts : SearchOptions) (m : SearchMatch)
    (hm : m ∈ fuzzySearchGuests q guests opts) :
    effectiveMinSimilarity (normalizeString (some q)) opts.minSimilarity ≤ m.score ∧
    ((normalizeString (some q)).length ≤ 2 →
      effectiveMinSimilarity (normalizeString (some q)) opts.minSimilarity = 0.8) := by
  refine ⟨?_, fun hlen => by rw [effectiveMinSimilarity, if_pos hlen]⟩
  rw [fuzzySearchGuests] at hm
  split_ifs at hm
  · simp at hm
  · dsimp only at hm
    have hm' := (List.perm_insertionSort matchLE _).mem_iff.mp hm
    rcases List.mem_filterMap.mp hm' with ⟨g, _, hsome⟩
    cases hmg : matchGuest (normalizeString (some q)) g opts.searchFields
        (some opts.maxDistance) with
    | none => rw [hmg] at hsome; simp at hsome
    | some r =>
      rw [hmg] at hsome
      dsimp only at hsome
      split_ifs at hsome with hle
      rw [Option.some_inj] at hsome
      rw [← hsome]
      exact hle

/-- Witness for C4's amended statement at the counterexample input: the match
returned for query "ab" with configured minSimilarity 0.9. -/
theorem c4_amended_short_query_threshold_witness :
    (effectiveMinSimilarity (normalizeString (some "ab")) opts09.minSimilarity ≤
      (SearchMatch.mk gXab 0.85 (some "fullName") (some 1)).score) ∧
    ((normalizeString (some "ab")).length ≤ 2 →
      effectiveMinSimilarity (normalizeString (some "ab")) opts09.minSimilarity = 0.8) :=
  c4_amended_short_query_threshold "ab" [gXab] opts09
    ⟨gXab, 0.85, some "fullName", some 1⟩ (by decide)

/-- C3 amended: whenever `matchGuest` returns a result, its score is positive,
it is the *winning* score — attained by some distance-qualifying candidate
representation and at least every other candidate's score — the matched-field
label is a configured field or `fullName` (the label the combined and reversed
forms report), and the `distance` is the recomputation against
`guest[bestField]` (falling back to the first+last concatenation), which is
not in general the winning representation's distance. -/
theorem c3_amended_match_result (q : List Char) (g : Guest) (fields : List String)
    (md : Option ℕ) (r : MatchResult) (h : matchGuest q g fields md = some r) :
    0 < r.score ∧
    r.score ∈ qualifyingScores q g fields md ∧
    (∀ s ∈ qualifyingScores q g fields md, s ≤ r.score) ∧
    (∀ f, r.matchedField = some f → f ∈ fields ∨ f = "fullName") ∧
    r.distance = recomputedDistance q g r.matchedField := by
  rw [matchGuest] at h
  split_ifs at h with hpos
  · rw [Option.some_inj] at h
    subst h
    refine ⟨hpos, ?_, ?_, ?_, rfl⟩
    · show (matchAcc q g fields md).1 ∈ _
      rw [matchAcc_fst]
      rcases foldl_max_eq_or_mem (qualifyingScores q g fields md) 0 with h0 | hmem
      · rw [matchAcc_fst, h0] at hpos
        exact absurd hpos (lt_irrefl 0)
      · exact hmem
    · intro s hs
      show s ≤ (matchAcc q g fields md).1
      rw [matchAcc_fst]
      exact (le_foldl_max _ 0).2 s hs
    · intro f hf
      replace hf : (matchAcc q g fields md).2 = some f := hf
      rcases matchAcc_snd q g fields md with h2 | ⟨f', hf', h2⟩ | h2
      · rw [h2] at hf; cases hf
      · rw [h2] at hf
        rw [Option.some_inj] at hf
        subst hf
        exact Or.inl hf'
      · rw [h2] at hf
        rw [Option.some_inj] at hf
        subst hf
        exact Or.inr rfl

/-- Witness for C3's amended statement: the result of matching "ann" against
the guest with full name "Ann". -/
theorem c3_amended_match_result_witness :
    0 < (MatchResult.mk 1 (some "fullName") (some 0)).score ∧
    (MatchResult.mk 1 (some "fullName") (some 0)).score ∈
      qualifyingScores "ann".data gAnn defaultFields (some 3) ∧
    (∀ s ∈ qualifyingScores "ann".data gAnn defaultFields (some 3),
      s ≤ (MatchResult.mk 1 (some "fullName") (some 0)).score) ∧
    (∀ f, (MatchResult.mk 1 (some "fullName") (some 0)).matchedField = some f →
      f ∈ defaultFields ∨ f = "fullName") ∧
    (MatchResult.mk 1 (some "fullName") (some 0)).distance =
      recomputedDistance "ann".data gAnn
        (MatchResult.mk 1 (some "fullName") (some 0)).matchedField :=
  c3_amended_match_result "ann".data gAnn defaultFields (some 3)
    ⟨1, some "fullName", some 0⟩ (by decide)

/-- C10: the query "..." is neither empty nor whitespace-only, yet it
normalizes to the empty string, escapes the empty-query guard, and — because
the empty query is a prefix and substring of everything — every guest having a
configured field whose normalized value is no longer than the default
`maxDistance` is returned with score exactly 0.9. -/
theorem c10_dots_query_matches_everything (guests : List Guest) (g : Guest)
    (f : String) (v : String) (hg : g ∈ guests)
    (hf : f ∈ ({} : SearchOptions).searchFields)
    (hv : presentVal (getField g f) = some v)
    (hlen : (normalizeString (some v)).length ≤ ({} : SearchOptions).maxDistance) :
    ¬jsTrim "...".data = [] ∧ normalizeString (some "...") = [] ∧
    ∃ m ∈ fuzzySearchGuests "..." guests {}, m.guest = g ∧ m.score = 0.9 := by
  have hqnil : normalizeString (some "...") = [] := by decide
  refine ⟨by decide, hqnil, ?_⟩
  have hcand : (0.9 : ℚ) ∈ qualifyingScores [] g ({} : SearchOptions).searchFields
      (some ({} : SearchOptions).maxDistance) := by
    rw [qualifyingScores]
    apply List.mem_map.mpr
    refine ⟨(f, normalizeString (some v)), ?_, boostScore_nil _⟩
    apply List.mem_filter.mpr
    refine ⟨?_, ?_⟩
    · rw [candidateReprs]
      apply List.mem_append_left
      apply List.mem_filterMap.mpr
      exact ⟨f, hf, by rw [hv]; rfl⟩
    · show distOk _ (levenshteinDistance [] (normalizeString (some v))) = true
      rw [levenshteinDistance_nil_left]
      simpa [distOk] using hlen
  have hall : ∀ s ∈ qualifyingScores [] g ({} : SearchOptions).searchFields
      (some ({} : SearchOptions).maxDistance), s = 0.9 := by
    intro s hs
    rw [qualifyingScores] at hs
    rcases List.mem_map.mp hs with ⟨p, _, hps⟩
    rw [← hps, boostScore_nil]
  have hfold : (qualifyingScores [] g ({} : SearchOptions).searchFields
      (some ({} : SearchOptions).maxDistance)).foldl max 0 = 0.9 := by
    rcases foldl_max_eq_or_mem (qualifyingScores [] g ({} : SearchOptions).searchFields
        (some ({} : SearchOptions).maxDistance)) 0 with h0 | hmem
    · exfalso
      have h9 := (le_foldl_max (qualifyingScores [] g ({} : SearchOptions).searchFields
        (some ({} : SearchOptions).maxDistance)) 0).2 _ hcand
      rw [h0] at h9
      norm_num at h9
    · exact hall _ hmem
  have hmg : matchGuest [] g ({} : SearchOptions).searchFields
      (some ({} : SearchOptions).maxDistance) =
      some ⟨0.9, (matchAcc [] g ({} : SearchOptions).searchFields
          (some ({} : SearchOptions).maxDistance)).2,
        recomputedDistance [] g (matchAcc [] g ({} : SearchOptions).searchFields
          (some ({} : SearchOptions).maxDistance)).2⟩ := by
    rw [matchGuest]
    dsimp only
    rw [matchAcc_fst, hfold, if_pos (by norm_num : (0 : ℚ) < 0.9)]
  have hsc : effectiveMinSimilarity (normalizeString (some "..."))
      ({} : SearchOptions).minSimilarity ≤
      (MatchResult.mk 0.9 (matchAcc [] g ({} : SearchOptions).searchFields
          (some ({} : SearchOptions).maxDistance)).2
        (recomputedDistance [] g (matchAcc [] g ({} : SearchOptions).searchFields
          (some ({} : SearchOptions).maxDistance)).2)).score := by
    rw [hqnil, effectiveMinSimilarity, if_pos (by norm_num)]
    norm_num
  have hmem := mem_fuzzySearchGuests_of "..." guests {} g _ hg (by decide)
    (by rw [hqnil]; exact hmg) hsc
  exact ⟨_, hmem, rfl, rfl⟩

/-- Witness for C10: a single guest named "Ann" (normalized length 3) is
returned with score 0.9 for the query "...". -/
theorem c10_dots_query_matches_everything_witness :
    ¬jsTrim "...".data = [] ∧ normalizeString (some "...") = [] ∧
    ∃ m ∈ fuzzySearchGuests "..." [gAnn] {}, m.guest = gAnn ∧ m.score = 0.9 :=
  c10_dots_query_matches_everything [gAnn] gAnn "fullName" "Ann"
    (by decide) (by decide) (by decide) (by decide)

/-- Witness for C7, discharging each hypothesis at concrete strings. -/
theorem c7_similarity_bounds_witness :
    calculateSimilarity [] "abc".data = 0 ∧
    calculateSimilarity "john".data "jon".data =
      1 - (levenshteinDistance "john".data "jon".data : ℚ) /
        ((max "john".data.length "jon".data.length : ℕ) : ℚ) ∧
    0 ≤ calculateSimilarity "john".data "jon".data ∧
    calculateSimilarity "ann".data "ann".data = 1 :=
  ⟨(c7_similarity_bounds [] "abc".data).1 (Or.inl rfl),
   (c7_similarity_bounds "john".data "jon".data).2.1 (by decide) (by decide),
   (c7_similarity_bounds "john".data "jon".data).2.2.1,
   (c7_similarity_bounds "ann".data "ann".data).2.2.2.2 (by decide)⟩

end FuzzySearch
